import Mathlib

/-!
Shallow embedding of the bounded TTL-LRU cache in `src/cache/lru.go`
(package `cache` of the gubernator repository), together with proofs of
the specification claims about it.

Modelling conventions:
* The Go doubly-linked list `c.ll` (front = most recently used) is a
  Lean `List` of records with the front at the head.
* The Go map `c.cache : map[interface{}]*list.Element` maps a key to the
  node holding the record for that key.  We model its key set as a
  `List K`; the pointed-to node is identified by the key (keys are
  unique in every reachable state, which we prove as the C6 invariant).
* Keys and values (`interface{}` in Go) are type parameters `K`, `V`.
* `MillisecondNow()` (wall clock) becomes an explicit `now : Int`
  argument to `Get`.
* The mutex and the prometheus descriptors carry no cache logic and are
  omitted.
-/

namespace Cache

/-- A single cached item: `cacheRecord` from `cache/lru.go` (key, value,
absolute expiration time in Unix epoch milliseconds). -/
structure CacheRecord (K V : Type) where
  key : K
  value : V
  expireAt : Int
deriving DecidableEq

/-- Hit/miss counters, the `Stats` struct of the `cache` package. -/
structure Stats where
  hit : Nat
  miss : Nat
deriving DecidableEq

/-- The `LRUCache` struct: ordering structure `ll` (head = front = most
recently used), index key set `cache`, stats, and the capacity field
`cacheSize`.  `cacheSize` is a Go `int`, so it is modelled as `Int`
(it can be negative). -/
structure LRUCache (K V : Type) where
  ll : List (CacheRecord K V)
  cache : List K
  stats : Stats
  cacheSize : Int
deriving DecidableEq

variable {K V : Type} [DecidableEq K]

/-- Modelled from the dependency `holster.SetDefault(&maxSize, 50000)`:
it overwrites the destination with the default exactly when the
destination holds the zero value of its type (here `0 : int`). -/
def setDefault (x d : Int) : Int :=
  if x = 0 then d else x

/-- The constructor `NewLRUCache(maxSize int)`. -/
def NewLRUCache (K V : Type) (maxSize : Int) : LRUCache K V :=
  { ll := []
    cache := []
    stats := { hit := 0, miss := 0 }
    cacheSize := setDefault maxSize 50000 }

/-- Lookup in the ordering structure of the (first) record with the given
key: the record reached through the map pointer `c.cache[key]`. -/
def findRecord : List (CacheRecord K V) → K → Option (CacheRecord K V)
  | [], _ => none
  | r :: rs, k => if r.key = k then some r else findRecord rs k

/-- Removal of the node holding the (first) record with the given key:
`c.ll.Remove(e)` where `e` is the node the map points at. -/
def llRemove : List (CacheRecord K V) → K → List (CacheRecord K V)
  | [], _ => []
  | r :: rs, k => if r.key = k then rs else r :: llRemove rs k

/-- Deletion of a key from the map key set: `delete(c.cache, key)`. -/
def mapDelete : List K → K → List K
  | [], _ => []
  | x :: xs, k => if x = k then xs else x :: mapDelete xs k

/-- The private method `removeElement(e)`: unlink the node from the
ordering structure and delete its key from the index. -/
def removeElement (c : LRUCache K V) (k : K) : LRUCache K V :=
  { c with ll := llRemove c.ll k, cache := mapDelete c.cache k }

/-- The private method `removeOldest()`: evict the entry at the back of
the ordering structure, if any. -/
def removeOldest (c : LRUCache K V) : LRUCache K V :=
  match c.ll.getLast? with
  | some r => removeElement c r.key
  | none => c

/-- The private method `addRecord(record)`.  If the key is present the
node is moved to the front and its record overwritten in place
(`*temp = *record`); otherwise the record is pushed at the front, the key
added to the index, and if the new length exceeds a non-zero `cacheSize`
the back entry is evicted. -/
def addRecord (c : LRUCache K V) (r : CacheRecord K V) : Bool × LRUCache K V :=
  if r.key ∈ c.cache then
    (true,
      { c with ll :=
          match findRecord c.ll r.key with
          | some _ => r :: llRemove c.ll r.key
          | none => c.ll })
  else
    let c' : LRUCache K V := { c with ll := r :: c.ll, cache := r.key :: c.cache }
    if c'.cacheSize ≠ 0 ∧ (c'.ll.length : Int) > c'.cacheSize then
      (false, removeOldest c')
    else
      (false, c')

/-- The public method `Add(key, value, expireAt)`. -/
def Add (c : LRUCache K V) (k : K) (v : V) (e : Int) : Bool × LRUCache K V :=
  addRecord c { key := k, value := v, expireAt := e }

/-- The public method `Get(key)`.  `now` is the value of
`MillisecondNow()` sampled at call time.  A present record with
`expireAt < now` is lazily purged and counted as a miss; otherwise it is
a hit and is moved to the front. -/
def Get (c : LRUCache K V) (k : K) (now : Int) : Option V × LRUCache K V :=
  if k ∈ c.cache then
    match findRecord c.ll k with
    | some entry =>
      if entry.expireAt < now then
        let c' := removeElement c k
        (none, { c' with stats := { c'.stats with miss := c'.stats.miss + 1 } })
      else
        (some entry.value,
          { c with
              stats := { c.stats with hit := c.stats.hit + 1 }
              ll := entry :: llRemove c.ll k })
    | none =>
      (none, { c with stats := { c.stats with miss := c.stats.miss + 1 } })
  else
    (none, { c with stats := { c.stats with miss := c.stats.miss + 1 } })

/-- The public method `Remove(key)`. -/
def Remove (c : LRUCache K V) (k : K) : LRUCache K V :=
  if k ∈ c.cache then removeElement c k else c

/-- The public method `Size()`: the length of the ordering structure. -/
def Size (c : LRUCache K V) : Nat :=
  c.ll.length

/-- In-place overwrite of the `expireAt` field of the (first) record with
the given key, through the map pointer (`entry.expireAt = expireAt`). -/
def setExpire : List (CacheRecord K V) → K → Int → List (CacheRecord K V)
  | [], _, _ => []
  | r :: rs, k, e =>
    if r.key = k then { r with expireAt := e } :: rs else r :: setExpire rs k e

/-- The public method `UpdateExpiration(key, expireAt)`. -/
def UpdateExpiration (c : LRUCache K V) (k : K) (e : Int) : Bool × LRUCache K V :=
  if k ∈ c.cache then (true, { c with ll := setExpire c.ll k e }) else (false, c)

/-- One public mutating call, for reasoning about operation sequences.
The `now` of a `get` is the clock value sampled by that call. -/
inductive Op (K V : Type) where
  | add (k : K) (v : V) (e : Int)
  | get (k : K) (now : Int)
  | remove (k : K)
  | update (k : K) (e : Int)

/-- State after one public call. -/
def step (c : LRUCache K V) : Op K V → LRUCache K V
  | .add k v e => (Add c k v e).2
  | .get k now => (Get c k now).2
  | .remove k => Remove c k
  | .update k e => (UpdateExpiration c k e).2

/-- State after a sequence of public calls. -/
def run (c : LRUCache K V) : List (Op K V) → LRUCache K V
  | [] => c
  | op :: rest => run (step c op) rest

/-- Contribution of one call to the hit counter: 1 for a `Get` that finds
an unexpired entry, 0 otherwise. -/
def hitDelta (c : LRUCache K V) : Op K V → Nat
  | .get k now => if (Get c k now).1.isSome then 1 else 0
  | _ => 0

/-- Contribution of one call to the miss counter: 1 for a `Get` that finds
nothing usable, 0 otherwise. -/
def missDelta (c : LRUCache K V) : Op K V → Nat
  | .get k now => if (Get c k now).1.isSome then 0 else 1
  | _ => 0

/-- Number of hitting `Get` calls along a sequence. -/
def getHits (c : LRUCache K V) : List (Op K V) → Nat
  | [] => 0
  | op :: rest => hitDelta c op + getHits (step c op) rest

/-- Number of missing `Get` calls along a sequence. -/
def getMisses (c : LRUCache K V) : List (Op K V) → Nat
  | [] => 0
  | op :: rest => missDelta c op + getMisses (step c op) rest

/-- Whether a call is a `Get`. -/
def isGet : Op K V → Bool
  | .get _ _ => true
  | _ => false

/-- First state of the concrete capacity-2 spec scenario. -/
def c8s1 : LRUCache String Int := (Add (NewLRUCache String Int 2) "a" 1 1000).2

/-- Second state of the concrete capacity-2 spec scenario. -/
def c8s2 : LRUCache String Int := (Add c8s1 "b" 2 1000).2

/-- Third state of the concrete capacity-2 spec scenario (after the hit). -/
def c8s3 : LRUCache String Int := (Get c8s2 "a" 0).2

/-- Fourth state of the concrete capacity-2 spec scenario (after the
evicting Add). -/
def c8s4 : LRUCache String Int := (Add c8s3 "c" 3 1000).2

/-- Consistency of the two structures: the map key set is a permutation
of the keys of the ordering structure and holds no duplicates. -/
def WF (c : LRUCache K V) : Prop :=
  c.cache.Perm (c.ll.map CacheRecord.key) ∧ c.cache.Nodup

/-- States reachable from a freshly constructed cache by the public
mutating operations. -/
inductive Reachable : LRUCache K V → Prop where
  | new (maxSize : Int) : Reachable (NewLRUCache K V maxSize)
  | add {c : LRUCache K V} (k : K) (v : V) (e : Int) :
      Reachable c → Reachable (Add c k v e).2
  | get {c : LRUCache K V} (k : K) (now : Int) :
      Reachable c → Reachable (Get c k now).2
  | remove {c : LRUCache K V} (k : K) :
      Reachable c → Reachable (Remove c k)
  | update {c : LRUCache K V} (k : K) (e : Int) :
      Reachable c → Reachable (UpdateExpiration c k e).2

instance (c : LRUCache K V) : Decidable (WF c) :=
  inferInstanceAs (Decidable (_ ∧ _))

/-! Basic lemmas about the list-level helpers. -/

theorem findRecord_eq_none {l : List (CacheRecord K V)} {k : K} :
    findRecord l k = none ↔ k ∉ l.map CacheRecord.key := by
  induction l with
  | nil => simp [findRecord]
  | cons r rs ih =>
    by_cases h : r.key = k
    · simp [findRecord, h]
    · simp only [findRecord, if_neg h]
      rw [ih]
      simp only [List.map_cons, List.mem_cons, not_or]
      constructor
      · intro hk
        exact ⟨fun he => h he.symm, hk⟩
      · intro hk
        exact hk.2

theorem findRecord_key : ∀ {l : List (CacheRecord K V)} {k : K} {r : CacheRecord K V},
    findRecord l k = some r → r.key = k
  | [], _, _, h => by simp [findRecord] at h
  | x :: xs, k, r, h => by
    by_cases hx : x.key = k
    · simp [findRecord, hx] at h
      subst h
      exact hx
    · simp [findRecord, hx] at h
      exact findRecord_key h

theorem findRecord_mem : ∀ {l : List (CacheRecord K V)} {k : K} {r : CacheRecord K V},
    findRecord l k = some r → r ∈ l
  | [], _, _, h => by simp [findRecord] at h
  | x :: xs, k, r, h => by
    by_cases hx : x.key = k
    · simp [findRecord, hx] at h
      subst h
      exact List.mem_cons_self x xs
    · simp [findRecord, hx] at h
      exact List.mem_cons_of_mem x (findRecord_mem h)

theorem findRecord_isSome_of_mem {l : List (CacheRecord K V)} {k : K}
    (h : k ∈ l.map CacheRecord.key) : ∃ r, findRecord l k = some r := by
  cases hf : findRecord l k with
  | some r => exact ⟨r, rfl⟩
  | none => exact absurd h (findRecord_eq_none.mp hf)

theorem map_key_llRemove (l : List (CacheRecord K V)) (k : K) :
    (llRemove l k).map CacheRecord.key = mapDelete (l.map CacheRecord.key) k := by
  induction l with
  | nil => rfl
  | cons r rs ih =>
    by_cases h : r.key = k
    · simp [llRemove, mapDelete, h]
    · simp [llRemove, mapDelete, h, ih]

theorem mapDelete_eq_erase (l : List K) (k : K) : mapDelete l k = l.erase k := by
  induction l with
  | nil => rfl
  | cons x xs ih =>
    by_cases h : x = k
    · simp [mapDelete, List.erase_cons, h]
    · simp [mapDelete, List.erase_cons, h, ih]

theorem length_llRemove : ∀ {l : List (CacheRecord K V)} {k : K} {r : CacheRecord K V},
    findRecord l k = some r → (llRemove l k).length + 1 = l.length
  | [], _, _, h => by simp [findRecord] at h
  | x :: xs, k, r, h => by
    by_cases hx : x.key = k
    · simp [llRemove, hx]
    · simp [findRecord, hx] at h
      simp [llRemove, hx, length_llRemove h]

theorem map_key_setExpire (l : List (CacheRecord K V)) (k : K) (e : Int) :
    (setExpire l k e).map CacheRecord.key = l.map CacheRecord.key := by
  induction l with
  | nil => rfl
  | cons r rs ih =>
    by_cases h : r.key = k
    · simp [setExpire, h]
    · simp [setExpire, h, ih]

theorem map_kv_setExpire (l : List (CacheRecord K V)) (k : K) (e : Int) :
    (setExpire l k e).map (fun r => (r.key, r.value)) =
      l.map (fun r => (r.key, r.value)) := by
  induction l with
  | nil => rfl
  | cons r rs ih =>
    by_cases h : r.key = k
    · simp [setExpire, h]
    · simp [setExpire, h, ih]

theorem findRecord_setExpire (l : List (CacheRecord K V)) (k : K) (e : Int) :
    findRecord (setExpire l k e) k =
      (findRecord l k).map (fun r => { r with expireAt := e }) := by
  induction l with
  | nil => rfl
  | cons r rs ih =>
    by_cases h : r.key = k
    · simp [setExpire, findRecord, h]
    · simp [setExpire, findRecord, h, ih]

theorem setExpire_mem_of_ne {l : List (CacheRecord K V)} {k : K} {e : Int}
    {r : CacheRecord K V} (hr : r ∈ l) (hk : r.key ≠ k) : r ∈ setExpire l k e := by
  induction l with
  | nil => simp at hr
  | cons x xs ih =>
    rcases List.mem_cons.mp hr with h | h
    · subst h
      simp [setExpire, hk]
    · by_cases hx : x.key = k
      · simp [setExpire, hx]
        exact Or.inr h
      · simp [setExpire, hx]
        exact Or.inr (ih h)

theorem llRemove_getLast : ∀ {l : List (CacheRecord K V)} {r : CacheRecord K V},
    (l.map CacheRecord.key).Nodup → l.getLast? = some r →
      llRemove l r.key = l.dropLast
  | [], _, _, hl => by simp at hl
  | [x], r, _, hl => by
    rw [List.getLast?_singleton] at hl
    cases hl
    simp [llRemove]
  | x :: y :: t, r, hn, hl => by
    rw [List.getLast?_cons_cons] at hl
    have hmem : r ∈ y :: t := List.mem_of_mem_getLast? (by rw [hl]; rfl)
    have hx : x.key ≠ r.key := by
      intro he
      have hrk : r.key ∈ (y :: t).map CacheRecord.key := List.mem_map_of_mem _ hmem
      rw [List.map_cons, List.nodup_cons] at hn
      exact hn.1 (he ▸ hrk)
    have hn' : ((y :: t).map CacheRecord.key).Nodup := by
      rw [List.map_cons, List.nodup_cons] at hn
      exact hn.2
    have hstep : llRemove (x :: y :: t) r.key = x :: llRemove (y :: t) r.key := by
      simp [llRemove, hx]
    rw [hstep, llRemove_getLast hn' hl,
      List.dropLast_cons_of_ne_nil (List.cons_ne_nil y t)]

/-! Branch-shape lemmas for the public operations. -/

theorem Add_present {c : LRUCache K V} {k : K} {r0 : CacheRecord K V} (v : V) (e : Int)
    (hm : k ∈ c.cache) (hf : findRecord c.ll k = some r0) :
    Add c k v e =
      (true, { c with ll := { key := k, value := v, expireAt := e } :: llRemove c.ll k }) := by
  simp [Add, addRecord, hm, hf]

theorem Add_absent_no_evict {c : LRUCache K V} {k : K} (v : V) (e : Int)
    (hm : k ∉ c.cache)
    (hc : ¬(c.cacheSize ≠ 0 ∧ ((c.ll.length : Int) + 1 > c.cacheSize))) :
    Add c k v e =
      (false,
        { c with
            ll := { key := k, value := v, expireAt := e } :: c.ll
            cache := k :: c.cache }) := by
  simp only [Add, addRecord, if_neg hm]
  rw [if_neg]
  intro hand
  exact hc ⟨hand.1, by simpa using hand.2⟩

theorem Add_absent_evict {c : LRUCache K V} {k : K} (v : V) (e : Int)
    (hm : k ∉ c.cache) (hsz : c.cacheSize ≠ 0)
    (hlen : (c.ll.length : Int) + 1 > c.cacheSize) :
    Add c k v e =
      (false, removeOldest
        { c with
            ll := { key := k, value := v, expireAt := e } :: c.ll
            cache := k :: c.cache }) := by
  simp only [Add, addRecord, if_neg hm]
  rw [if_pos]
  exact ⟨hsz, by simpa using hlen⟩

theorem Get_absent {c : LRUCache K V} {k : K} (now : Int) (hm : k ∉ c.cache) :
    Get c k now = (none, { c with stats := { c.stats with miss := c.stats.miss + 1 } }) := by
  simp [Get, hm]

theorem Get_expired {c : LRUCache K V} {k : K} {now : Int} {r0 : CacheRecord K V}
    (hm : k ∈ c.cache) (hf : findRecord c.ll k = some r0) (he : r0.expireAt < now) :
    Get c k now =
      (none,
        { c with
            ll := llRemove c.ll k
            cache := mapDelete c.cache k
            stats := { c.stats with miss := c.stats.miss + 1 } }) := by
  simp [Get, hm, hf, he, removeElement]

theorem Get_hit {c : LRUCache K V} {k : K} {now : Int} {r0 : CacheRecord K V}
    (hm : k ∈ c.cache) (hf : findRecord c.ll k = some r0) (he : ¬r0.expireAt < now) :
    Get c k now =
      (some r0.value,
        { c with
            stats := { c.stats with hit := c.stats.hit + 1 }
            ll := r0 :: llRemove c.ll k }) := by
  simp [Get, hm, hf, he]

theorem Remove_present {c : LRUCache K V} {k : K} (hm : k ∈ c.cache) :
    Remove c k = removeElement c k := by
  simp [Remove, hm]

theorem Remove_absent {c : LRUCache K V} {k : K} (hm : k ∉ c.cache) :
    Remove c k = c := by
  simp [Remove, hm]

theorem UpdateExpiration_present {c : LRUCache K V} {k : K} (e : Int) (hm : k ∈ c.cache) :
    UpdateExpiration c k e = (true, { c with ll := setExpire c.ll k e }) := by
  simp [UpdateExpiration, hm]

theorem UpdateExpiration_absent {c : LRUCache K V} {k : K} (e : Int) (hm : k ∉ c.cache) :
    UpdateExpiration c k e = (false, c) := by
  simp [UpdateExpiration, hm]

/-! Preservation of the consistency invariant by every operation. -/

omit [DecidableEq K] in
theorem WF_new (m : Int) : WF (NewLRUCache K V m) := by
  constructor <;> simp [NewLRUCache]

omit [DecidableEq K] in
theorem WF_stats {c : LRUCache K V} (h : WF c) (s : Stats) :
    WF { c with stats := s } :=
  h

theorem WF_removeElement {c : LRUCache K V} (h : WF c) (k : K) :
    WF (removeElement c k) := by
  refine ⟨?_, ?_⟩
  · show (mapDelete c.cache k).Perm ((llRemove c.ll k).map CacheRecord.key)
    rw [mapDelete_eq_erase, map_key_llRemove, mapDelete_eq_erase]
    exact h.1.erase k
  · show (mapDelete c.cache k).Nodup
    rw [mapDelete_eq_erase]
    exact List.Nodup.erase k h.2

theorem WF_removeOldest {c : LRUCache K V} (h : WF c) : WF (removeOldest c) := by
  unfold removeOldest
  cases hl : c.ll.getLast? with
  | none => exact h
  | some r => exact WF_removeElement h r.key

theorem WF_Add {c : LRUCache K V} (h : WF c) (k : K) (v : V) (e : Int) :
    WF (Add c k v e).2 := by
  by_cases hm : k ∈ c.cache
  · obtain ⟨r0, hr0⟩ := findRecord_isSome_of_mem (h.1.mem_iff.mp hm)
    rw [Add_present v e hm hr0]
    refine ⟨?_, h.2⟩
    show c.cache.Perm
      (({ key := k, value := v, expireAt := e } :: llRemove c.ll k).map CacheRecord.key)
    rw [List.map_cons, map_key_llRemove, mapDelete_eq_erase]
    exact h.1.trans (List.perm_cons_erase (h.1.mem_iff.mp hm))
  · have hwf : WF ({ c with
        ll := { key := k, value := v, expireAt := e } :: c.ll
        cache := k :: c.cache } : LRUCache K V) := by
      refine ⟨?_, ?_⟩
      · show (k :: c.cache).Perm
          (({ key := k, value := v, expireAt := e } :: c.ll).map CacheRecord.key)
        rw [List.map_cons]
        exact h.1.cons k
      · exact List.Nodup.cons hm h.2
    by_cases hc : c.cacheSize ≠ 0 ∧ ((c.ll.length : Int) + 1 > c.cacheSize)
    · rw [Add_absent_evict v e hm hc.1 hc.2]
      exact WF_removeOldest hwf
    · rw [Add_absent_no_evict v e hm hc]
      exact hwf

theorem WF_Get {c : LRUCache K V} (h : WF c) (k : K) (now : Int) :
    WF (Get c k now).2 := by
  by_cases hm : k ∈ c.cache
  · obtain ⟨r0, hr0⟩ := findRecord_isSome_of_mem (h.1.mem_iff.mp hm)
    by_cases he : r0.expireAt < now
    · rw [Get_expired hm hr0 he]
      exact WF_stats (WF_removeElement h k) _
    · rw [Get_hit hm hr0 he]
      refine ⟨?_, h.2⟩
      show c.cache.Perm ((r0 :: llRemove c.ll k).map CacheRecord.key)
      rw [List.map_cons, map_key_llRemove, mapDelete_eq_erase, findRecord_key hr0]
      exact h.1.trans (List.perm_cons_erase (h.1.mem_iff.mp hm))
  · rw [Get_absent now hm]
    exact WF_stats h _

theorem WF_Remove {c : LRUCache K V} (h : WF c) (k : K) : WF (Remove c k) := by
  by_cases hm : k ∈ c.cache
  · rw [Remove_present hm]
    exact WF_removeElement h k
  · rw [Remove_absent hm]
    exact h

theorem WF_UpdateExpiration {c : LRUCache K V} (h : WF c) (k : K) (e : Int) :
    WF (UpdateExpiration c k e).2 := by
  by_cases hm : k ∈ c.cache
  · rw [UpdateExpiration_present e hm]
    refine ⟨?_, h.2⟩
    show c.cache.Perm ((setExpire c.ll k e).map CacheRecord.key)
    rw [map_key_setExpire]
    exact h.1
  · rw [UpdateExpiration_absent e hm]
    exact h

theorem reachable_WF {c : LRUCache K V} (h : Reachable c) : WF c := by
  induction h with
  | new m => exact WF_new m
  | add k v e _ ih => exact WF_Add ih k v e
  | get k now _ ih => exact WF_Get ih k now
  | remove k _ ih => exact WF_Remove ih k
  | update k e _ ih => exact WF_UpdateExpiration ih k e

/-! Stats bookkeeping lemmas. -/

theorem stats_removeOldest (c : LRUCache K V) : (removeOldest c).stats = c.stats := by
  unfold removeOldest
  cases c.ll.getLast? <;> rfl

theorem Add_stats (c : LRUCache K V) (k : K) (v : V) (e : Int) :
    (Add c k v e).2.stats = c.stats := by
  unfold Add addRecord
  split
  · rfl
  · dsimp only
    split
    · exact stats_removeOldest _
    · rfl

theorem Remove_stats (c : LRUCache K V) (k : K) : (Remove c k).stats = c.stats := by
  unfold Remove
  split <;> rfl

theorem UpdateExpiration_stats (c : LRUCache K V) (k : K) (e : Int) :
    (UpdateExpiration c k e).2.stats = c.stats := by
  unfold UpdateExpiration
  split <;> rfl

theorem Get_stats (c : LRUCache K V) (k : K) (now : Int) :
    (Get c k now).2.stats =
      (if (Get c k now).1.isSome then
        { hit := c.stats.hit + 1, miss := c.stats.miss }
      else
        { hit := c.stats.hit, miss := c.stats.miss + 1 }) := by
  unfold Get
  split
  · split
    · split <;> rfl
    · rfl
  · rfl

theorem step_hit (c : LRUCache K V) (op : Op K V) :
    (step c op).stats.hit = c.stats.hit + hitDelta c op := by
  cases op with
  | add k v e => simp [step, hitDelta, Add_stats]
  | get k now =>
    simp only [step, hitDelta]
    rw [Get_stats]
    by_cases h : (Get c k now).1.isSome <;> simp [h]
  | remove k => simp [step, hitDelta, Remove_stats]
  | update k e => simp [step, hitDelta, UpdateExpiration_stats]

theorem step_miss (c : LRUCache K V) (op : Op K V) :
    (step c op).stats.miss = c.stats.miss + missDelta c op := by
  cases op with
  | add k v e => simp [step, missDelta, Add_stats]
  | get k now =>
    simp only [step, missDelta]
    rw [Get_stats]
    by_cases h : (Get c k now).1.isSome <;> simp [h]
  | remove k => simp [step, missDelta, Remove_stats]
  | update k e => simp [step, missDelta, UpdateExpiration_stats]

theorem run_hit (c : LRUCache K V) (ops : List (Op K V)) :
    (run c ops).stats.hit = c.stats.hit + getHits c ops := by
  induction ops generalizing c with
  | nil => simp [run, getHits]
  | cons op rest ih =>
    have h1 : run c (op :: rest) = run (step c op) rest := rfl
    have h2 : getHits c (op :: rest) = hitDelta c op + getHits (step c op) rest := rfl
    rw [h1, ih (step c op), step_hit, h2]
    omega

theorem run_miss (c : LRUCache K V) (ops : List (Op K V)) :
    (run c ops).stats.miss = c.stats.miss + getMisses c ops := by
  induction ops generalizing c with
  | nil => simp [run, getMisses]
  | cons op rest ih =>
    have h1 : run c (op :: rest) = run (step c op) rest := rfl
    have h2 : getMisses c (op :: rest) = missDelta c op + getMisses (step c op) rest := rfl
    rw [h1, ih (step c op), step_miss, h2]
    omega

theorem hits_add_misses (c : LRUCache K V) (ops : List (Op K V)) :
    getHits c ops + getMisses c ops = (ops.filter isGet).length := by
  induction ops generalizing c with
  | nil => rfl
  | cons op rest ih =>
    have h2 : getHits c (op :: rest) = hitDelta c op + getHits (step c op) rest := rfl
    have h3 : getMisses c (op :: rest) = missDelta c op + getMisses (step c op) rest := rfl
    have h4 : hitDelta c op + missDelta c op = if isGet op then 1 else 0 := by
      cases op with
      | get k now =>
        by_cases h : (Get c k now).1.isSome <;> simp [hitDelta, missDelta, isGet, h]
      | add k v e => rfl
      | remove k => rfl
      | update k e => rfl
    have h5 := ih (step c op)
    rw [h2, h3, List.filter_cons]
    by_cases hg : isGet op = true
    · simp only [hg, if_pos] at h4 ⊢
      simp only [List.length_cons]
      omega
    · simp only [hg] at h4 ⊢
      simp only [Bool.false_eq_true, if_false] at h4 ⊢
      omega

/-! Further structural helpers used by the capacity claims. -/

theorem length_setExpire (l : List (CacheRecord K V)) (k : K) (e : Int) :
    (setExpire l k e).length = l.length := by
  induction l with
  | nil => rfl
  | cons r rs ih => by_cases h : r.key = k <;> simp [setExpire, h, ih]

theorem removeOldest_cons {c : LRUCache K V} {r : CacheRecord K V}
    {l : List (CacheRecord K V)} (h : c.ll = r :: l) :
    removeOldest c = removeElement c ((r :: l).getLast (List.cons_ne_nil r l)).key := by
  unfold removeOldest
  rw [h, List.getLast?_eq_getLast _ (List.cons_ne_nil r l)]

/-- Combined shape of an eviction-triggering Add of an absent key: the new
record goes to the front, the back entry leaves the ordering structure and
its key leaves the index, and the cardinality is back to its pre-Add
value. -/
theorem addAbsent_evict_state (c : LRUCache K V) (k : K) (v : V) (e : Int)
    (hwf : WF c) (hm : k ∉ c.cache) (hsz : c.cacheSize ≠ 0)
    (hlen : (c.ll.length : Int) + 1 > c.cacheSize) :
    (Add c k v e).2.ll = ({ key := k, value := v, expireAt := e } :: c.ll).dropLast ∧
    (Add c k v e).2.cache =
      mapDelete (k :: c.cache)
        (({ key := k, value := v, expireAt := e } :: c.ll).getLast
          (List.cons_ne_nil _ _)).key ∧
    Size (Add c k v e).2 = Size c := by
  have hkll : k ∉ c.ll.map CacheRecord.key := fun hk => hm (hwf.1.mem_iff.mpr hk)
  have hnodup :
      (({ key := k, value := v, expireAt := e } :: c.ll).map CacheRecord.key).Nodup := by
    rw [List.map_cons]
    exact List.Nodup.cons hkll ((hwf.1.nodup_iff).mp hwf.2)
  rw [Add_absent_evict v e hm hsz hlen]
  rw [removeOldest_cons rfl]
  have hll : llRemove ({ key := k, value := v, expireAt := e } :: c.ll)
      (({ key := k, value := v, expireAt := e } :: c.ll).getLast
        (List.cons_ne_nil _ _)).key =
      ({ key := k, value := v, expireAt := e } :: c.ll).dropLast :=
    llRemove_getLast hnodup (List.getLast?_eq_getLast _ (List.cons_ne_nil _ _))
  refine ⟨hll, rfl, ?_⟩
  show (llRemove ({ key := k, value := v, expireAt := e } :: c.ll) _).length = c.ll.length
  rw [hll, List.length_dropLast, List.length_cons]
  omega

/-! The specification claims. -/

/-- C1 (counterexample): the cache constructed with max_size = -1 has a
nonzero capacity, and adding an absent key to it triggers eviction of the
entry at the back — which is the just-inserted one — so Size() afterwards
is 0 and does not remain at max_size = -1, refuting the claim as stated
for caches created with negative nonzero max_size. -/
theorem C1_counterexample :
    (NewLRUCache String Int (-1)).cacheSize = -1 ∧
    (Add (NewLRUCache String Int (-1)) "a" 1 100).1 = false ∧
    Size (Add (NewLRUCache String Int (-1)) "a" 1 100).2 = 0 ∧
    ¬((Size (Add (NewLRUCache String Int (-1)) "a" 1 100).2 : Int) =
        (NewLRUCache String Int (-1)).cacheSize) := by
  decide

/-- C1 (amended): for every well-formed cache with nonzero capacity, Add
of an absent key returns false and pushes the new entry at the front; if
the post-insert cardinality exceeds the capacity, exactly one entry — the
one at the back of the ordering structure — is removed from both the
ordering structure and the index regardless of its expiration state, so
Size() equals its pre-Add value; otherwise Size() grows by one.  In
particular, with positive capacity and a full cache, Size() remains at
max_size. -/
theorem C1_addAbsent (c : LRUCache K V) (k : K) (v : V) (e : Int)
    (hwf : WF c) (hm : k ∉ c.cache) (hsz : c.cacheSize ≠ 0) :
    (Add c k v e).1 = false ∧
    ((c.ll.length : Int) + 1 > c.cacheSize →
      (Add c k v e).2.ll = ({ key := k, value := v, expireAt := e } :: c.ll).dropLast ∧
      (Add c k v e).2.cache =
        mapDelete (k :: c.cache)
          (({ key := k, value := v, expireAt := e } :: c.ll).getLast
            (List.cons_ne_nil _ _)).key ∧
      Size (Add c k v e).2 = Size c) ∧
    (¬((c.ll.length : Int) + 1 > c.cacheSize) →
      (Add c k v e).2.ll = { key := k, value := v, expireAt := e } :: c.ll ∧
      (Add c k v e).2.cache = k :: c.cache ∧
      Size (Add c k v e).2 = Size c + 1) ∧
    (0 < c.cacheSize → (Size c : Int) = c.cacheSize →
      (Size (Add c k v e).2 : Int) = c.cacheSize) := by
  by_cases hlen : (c.ll.length : Int) + 1 > c.cacheSize
  · obtain ⟨h1, h2, h3⟩ := addAbsent_evict_state c k v e hwf hm hsz hlen
    refine ⟨?_, fun _ => ⟨h1, h2, h3⟩, fun hc => absurd hlen hc, fun _ hfull => ?_⟩
    · rw [Add_absent_evict v e hm hsz hlen]
    · rw [h3]
      exact hfull
  · have hc : ¬(c.cacheSize ≠ 0 ∧ ((c.ll.length : Int) + 1 > c.cacheSize)) :=
      fun hand => hlen hand.2
    rw [Add_absent_no_evict v e hm hc]
    refine ⟨rfl, fun hcon => absurd hcon hlen, fun _ => ⟨rfl, rfl, ?_⟩, fun hpos hfull => ?_⟩
    · show ({ key := k, value := v, expireAt := e } :: c.ll).length = c.ll.length + 1
      rw [List.length_cons]
    · exact absurd hlen (by unfold Size at hfull; omega)

/-- C1 (witness): on a full capacity-1 cache, adding a second distinct key
returns false and keeps Size() at 1. -/
theorem C1_witness :
    (Add (Add (NewLRUCache String Int 1) "a" 1 5).2 "b" 2 7).1 = false ∧
    Size (Add (Add (NewLRUCache String Int 1) "a" 1 5).2 "b" 2 7).2 = 1 := by
  have h := C1_addAbsent (Add (NewLRUCache String Int 1) "a" 1 5).2 "b" 2 7
    (by decide) (by decide) (by decide)
  refine ⟨h.1, ?_⟩
  have h2 := (h.2.1 (by decide)).2.2
  rw [h2]
  decide

/-- C2: Get on a present key whose expire_at is strictly below now returns
not-found, increments misses (leaving hits alone), and removes the entry
from both the ordering structure and the index, so Size() drops by one;
Get on an absent key increments misses and returns not-found leaving the
ordering structure, the index and the capacity untouched. -/
theorem C2_getExpiredAndAbsent (c : LRUCache K V) (k : K) (now : Int) :
    (∀ r0, k ∈ c.cache → findRecord c.ll k = some r0 → r0.expireAt < now →
      (Get c k now).1 = none ∧
      (Get c k now).2.stats.miss = c.stats.miss + 1 ∧
      (Get c k now).2.stats.hit = c.stats.hit ∧
      (Get c k now).2.ll = llRemove c.ll k ∧
      (Get c k now).2.cache = mapDelete c.cache k ∧
      Size (Get c k now).2 + 1 = Size c) ∧
    (k ∉ c.cache →
      (Get c k now).1 = none ∧
      (Get c k now).2 = { c with stats := { c.stats with miss := c.stats.miss + 1 } }) := by
  constructor
  · intro r0 hm hf he
    rw [Get_expired hm hf he]
    refine ⟨rfl, rfl, rfl, rfl, rfl, ?_⟩
    show (llRemove c.ll k).length + 1 = c.ll.length
    exact length_llRemove hf
  · intro hm
    rw [Get_absent now hm]
    exact ⟨rfl, rfl⟩

/-- C2 (witness): on a cache holding x with expire_at 10, Get at now = 11
misses and empties the cache, and Get of the absent key y also misses. -/
theorem C2_witness :
    (Get (Add (NewLRUCache String Int 5) "x" 7 10).2 "x" 11).1 = none ∧
    Size (Get (Add (NewLRUCache String Int 5) "x" 7 10).2 "x" 11).2 + 1 =
      Size (Add (NewLRUCache String Int 5) "x" 7 10).2 ∧
    (Get (Add (NewLRUCache String Int 5) "x" 7 10).2 "y" 11).1 = none := by
  refine ⟨?_, ?_, ?_⟩
  · exact ((C2_getExpiredAndAbsent (Add (NewLRUCache String Int 5) "x" 7 10).2 "x" 11).1
      { key := "x", value := 7, expireAt := 10 } (by decide) (by decide) (by decide)).1
  · exact ((C2_getExpiredAndAbsent (Add (NewLRUCache String Int 5) "x" 7 10).2 "x" 11).1
      { key := "x", value := 7, expireAt := 10 } (by decide) (by decide) (by decide)).2.2.2.2.2
  · exact ((C2_getExpiredAndAbsent (Add (NewLRUCache String Int 5) "x" 7 10).2 "y" 11).2
      (by decide)).1

/-- C3 (counterexample): constructing with max_size = 0 yields capacity
50000, not an unbounded cache, and constructing with the non-positive
max_size = -7 yields capacity -7, not the default 50000 — refuting both
halves of the claim as stated. -/
theorem C3_counterexample :
    (NewLRUCache String Int 0).cacheSize = 50000 ∧
    (NewLRUCache String Int (-7)).cacheSize = -7 ∧
    ¬((NewLRUCache String Int (-7)).cacheSize = 50000) := by
  decide

/-- C3 (amended): the constructor normalizes exactly the zero max_size to
the default capacity 50000 and stores every nonzero max_size (negative
included) unchanged; the stored capacity is never 0, so the capacity
eviction guard of addRecord is enabled for every constructed cache. -/
theorem C3_newCapacity (K V : Type) (m : Int) :
    (NewLRUCache K V m).cacheSize = (if m = 0 then 50000 else m) ∧
    (NewLRUCache K V m).cacheSize ≠ 0 := by
  have h : (NewLRUCache K V m).cacheSize = setDefault m 50000 := rfl
  rw [h]
  unfold setDefault
  refine ⟨rfl, ?_⟩
  split
  · omega
  · assumption

/-- C3 (witness): the amended normalization rule at the concrete inputs 0
and -2. -/
theorem C3_witness :
    (NewLRUCache String Int 0).cacheSize = 50000 ∧
    (NewLRUCache String Int (-2)).cacheSize ≠ 0 :=
  ⟨by simpa using (C3_newCapacity String Int 0).1, (C3_newCapacity String Int (-2)).2⟩

/-- C4: Add on a present key overwrites that entry's value and expire_at
in place (no expiration check is involved), moves it to the front of the
ordering structure, returns true, and leaves the index, the stats, the
capacity and Size() unchanged. -/
theorem C4_addPresent (c : LRUCache K V) (k : K) (v : V) (e : Int)
    (hwf : WF c) (hm : k ∈ c.cache) :
    (Add c k v e).1 = true ∧
    (Add c k v e).2.ll = { key := k, value := v, expireAt := e } :: llRemove c.ll k ∧
    (Add c k v e).2.cache = c.cache ∧
    (Add c k v e).2.stats = c.stats ∧
    (Add c k v e).2.cacheSize = c.cacheSize ∧
    Size (Add c k v e).2 = Size c := by
  obtain ⟨r0, hr0⟩ := findRecord_isSome_of_mem (hwf.1.mem_iff.mp hm)
  rw [Add_present v e hm hr0]
  refine ⟨rfl, rfl, rfl, rfl, rfl, ?_⟩
  show ({ key := k, value := v, expireAt := e } :: llRemove c.ll k).length = c.ll.length
  rw [List.length_cons]
  exact length_llRemove hr0

/-- C4 (witness): re-adding the key a of an already-expired entry succeeds
in place: returns true, Size() stays 1, and the new value is stored at the
front. -/
theorem C4_witness :
    (Add (Add (NewLRUCache String Int 3) "a" 1 5).2 "a" 2 9).1 = true ∧
    Size (Add (Add (NewLRUCache String Int 3) "a" 1 5).2 "a" 2 9).2 =
      Size (Add (NewLRUCache String Int 3) "a" 1 5).2 := by
  have h := C4_addPresent (Add (NewLRUCache String Int 3) "a" 1 5).2 "a" 2 9
    (by decide) (by decide)
  exact ⟨h.1, h.2.2.2.2.2⟩

/-- C5: UpdateExpiration on a present key returns true and overwrites only
that entry's expire_at: the key/value sequence of the ordering structure
(hence the stored values and the recency order), the index, the stats, the
capacity and Size() are unchanged, entries with other keys survive
unchanged, and the updated entry is found with the new expire_at;
UpdateExpiration on an absent key returns false and performs no mutation
at all. -/
theorem C5_updateExpiration (c : LRUCache K V) (k : K) (e : Int) :
    (k ∈ c.cache →
      (UpdateExpiration c k e).1 = true ∧
      (UpdateExpiration c k e).2.cache = c.cache ∧
      (UpdateExpiration c k e).2.stats = c.stats ∧
      (UpdateExpiration c k e).2.cacheSize = c.cacheSize ∧
      (UpdateExpiration c k e).2.ll.map (fun r => (r.key, r.value)) =
        c.ll.map (fun r => (r.key, r.value)) ∧
      Size (UpdateExpiration c k e).2 = Size c ∧
      findRecord (UpdateExpiration c k e).2.ll k =
        (findRecord c.ll k).map (fun r => { r with expireAt := e }) ∧
      (∀ r ∈ c.ll, r.key ≠ k → r ∈ (UpdateExpiration c k e).2.ll)) ∧
    (k ∉ c.cache → UpdateExpiration c k e = (false, c)) := by
  constructor
  · intro hm
    rw [UpdateExpiration_present e hm]
    refine ⟨rfl, rfl, rfl, rfl, map_kv_setExpire c.ll k e, length_setExpire c.ll k e,
      findRecord_setExpire c.ll k e, ?_⟩
    intro r hr hk
    exact setExpire_mem_of_ne hr hk
  · intro hm
    exact UpdateExpiration_absent e hm

/-- C5 (witness): updating the expiration of the present key x keeps
Size() and the stored value while the refreshed entry carries the new
expire_at; updating the absent key y returns false and changes nothing. -/
theorem C5_witness :
    (UpdateExpiration (Add (NewLRUCache String Int 3) "x" 7 10).2 "x" 99).1 = true ∧
    findRecord (UpdateExpiration (Add (NewLRUCache String Int 3) "x" 7 10).2 "x" 99).2.ll "x" =
      some { key := "x", value := 7, expireAt := 99 } ∧
    (UpdateExpiration (Add (NewLRUCache String Int 3) "x" 7 10).2 "y" 99) =
      (false, (Add (NewLRUCache String Int 3) "x" 7 10).2) := by
  have h := (C5_updateExpiration (Add (NewLRUCache String Int 3) "x" 7 10).2 "x" 99).1
    (by decide)
  refine ⟨h.1, ?_, ?_⟩
  · rw [h.2.2.2.2.2.2.1]
    decide
  · exact (C5_updateExpiration (Add (NewLRUCache String Int 3) "x" 7 10).2 "y" 99).2
      (by decide)

/-- C6: in every state reachable from a fresh cache by Add, Get, Remove
and UpdateExpiration, the index and the ordering structure are consistent:
same cardinality, same key set, and no duplicate keys on either side, so
there is exactly one index entry per live entry. -/
theorem C6_consistency (c : LRUCache K V) (h : Reachable c) :
    c.cache.length = c.ll.length ∧
    (∀ k, k ∈ c.cache ↔ k ∈ c.ll.map CacheRecord.key) ∧
    c.cache.Nodup ∧ (c.ll.map CacheRecord.key).Nodup := by
  have hwf := reachable_WF h
  refine ⟨?_, fun k => hwf.1.mem_iff, hwf.2, (hwf.1.nodup_iff).mp hwf.2⟩
  have hlen := hwf.1.length_eq
  simpa using hlen

/-- C6 (witness): consistency holds in the concrete state reached by an
Add followed by a Get. -/
theorem C6_witness :
    (Get (Add (NewLRUCache String Int 2) "a" 1 5).2 "a" 0).2.cache.length =
      (Get (Add (NewLRUCache String Int 2) "a" 1 5).2 "a" 0).2.ll.length ∧
    (Get (Add (NewLRUCache String Int 2) "a" 1 5).2 "a" 0).2.cache.Nodup := by
  have h := C6_consistency (Get (Add (NewLRUCache String Int 2) "a" 1 5).2 "a" 0).2
    (Reachable.get "a" 0 (Reachable.add "a" 1 5 (Reachable.new 2)))
  exact ⟨h.1, h.2.2.1⟩

/-- C7: the two counters are monotonically non-decreasing; Add, Remove and
UpdateExpiration never change them; every Get increments exactly one of
them by exactly one (hits on a hit, misses on a miss); hence over any
operation sequence the counters grow by exactly the number H of hitting
Gets and the number M of missing Gets, with H + M the number of Gets. -/
theorem C7_counters (c : LRUCache K V) (ops : List (Op K V)) :
    (∀ k v e, (Add c k v e).2.stats = c.stats) ∧
    (∀ k, (Remove c k).stats = c.stats) ∧
    (∀ k e, (UpdateExpiration c k e).2.stats = c.stats) ∧
    (∀ k now, (Get c k now).2.stats =
      (if (Get c k now).1.isSome then
        { hit := c.stats.hit + 1, miss := c.stats.miss }
      else
        { hit := c.stats.hit, miss := c.stats.miss + 1 })) ∧
    (run c ops).stats.hit = c.stats.hit + getHits c ops ∧
    (run c ops).stats.miss = c.stats.miss + getMisses c ops ∧
    getHits c ops + getMisses c ops = (ops.filter isGet).length ∧
    c.stats.hit ≤ (run c ops).stats.hit ∧
    c.stats.miss ≤ (run c ops).stats.miss := by
  refine ⟨Add_stats c, Remove_stats c, UpdateExpiration_stats c, Get_stats c,
    run_hit c ops, run_miss c ops, hits_add_misses c ops, ?_, ?_⟩
  · rw [run_hit c ops]
    omega
  · rw [run_miss c ops]
    omega

/-- C7 (witness): over the concrete sequence Add a, Get a (hit), Get b
(miss), Remove a, the counters end at exactly 1 hit and 1 miss and the
sequence contains two Gets. -/
theorem C7_witness :
    (run (NewLRUCache String Int 4)
        [Op.add "a" 1 10, Op.get "a" 0, Op.get "b" 0, Op.remove "a"]).stats.hit = 1 ∧
    (run (NewLRUCache String Int 4)
        [Op.add "a" 1 10, Op.get "a" 0, Op.get "b" 0, Op.remove "a"]).stats.miss = 1 := by
  have h := C7_counters (NewLRUCache String Int 4)
    [Op.add "a" 1 10, Op.get "a" 0, Op.get "b" 0, Op.remove "a"]
  obtain ⟨-, -, -, -, h5, h6, -, -, -⟩ := h
  rw [h5, h6]
  decide

/-- C8: in the concrete capacity-2 scenario with all expirations in the
future, after Add a, Add b, and a hit Get a that moves a to the front, the
subsequent Add c evicts b as least-recently-used; then Get b misses while
Get a and Get c hit with their stored values. -/
theorem C8_concrete :
    (Get c8s2 "a" 0).1 = some 1 ∧
    c8s3.ll.map CacheRecord.key = ["a", "b"] ∧
    c8s4.ll.map CacheRecord.key = ["c", "a"] ∧
    (Get c8s4 "b" 0).1 = none ∧
    (Get c8s4 "b" 0).2.stats.miss = c8s4.stats.miss + 1 ∧
    (Get c8s4 "a" 0).1 = some 1 ∧
    (Get c8s4 "c" 0).1 = some 3 := by
  decide

/-- C9: the expiration boundary is exclusive: Get on a present entry whose
expire_at is greater than or equal to now is a hit — the stored value is
returned, hits is incremented, misses is untouched, and the entry is kept
(moved to the front), leaving the index and Size() unchanged. -/
theorem C9_boundary (c : LRUCache K V) (k : K) (now : Int) (r0 : CacheRecord K V)
    (hm : k ∈ c.cache) (hf : findRecord c.ll k = some r0) (he : now ≤ r0.expireAt) :
    (Get c k now).1 = some r0.value ∧
    (Get c k now).2.stats.hit = c.stats.hit + 1 ∧
    (Get c k now).2.stats.miss = c.stats.miss ∧
    (Get c k now).2.ll = r0 :: llRemove c.ll k ∧
    (Get c k now).2.cache = c.cache ∧
    Size (Get c k now).2 = Size c := by
  rw [Get_hit hm hf (not_lt.mpr he)]
  refine ⟨rfl, rfl, rfl, rfl, rfl, ?_⟩
  show (r0 :: llRemove c.ll k).length = c.ll.length
  rw [List.length_cons]
  exact length_llRemove hf

/-- C9 (witness): a Get at now exactly equal to the entry's expire_at is a
hit that returns the stored value and keeps the entry. -/
theorem C9_witness :
    (Get (Add (NewLRUCache String Int 3) "x" 7 10).2 "x" 10).1 = some 7 ∧
    Size (Get (Add (NewLRUCache String Int 3) "x" 7 10).2 "x" 10).2 =
      Size (Add (NewLRUCache String Int 3) "x" 7 10).2 := by
  have h := C9_boundary (Add (NewLRUCache String Int 3) "x" 7 10).2 "x" 10
    { key := "x", value := 7, expireAt := 10 } (by decide) (by decide) (by decide)
  exact ⟨h.1, h.2.2.2.2.2⟩

/-- C10: a strictly negative maxSize is stored unchanged by the
constructor; on such a cache every Add of an absent key immediately evicts
the entry at the back of the ordering structure, keeping Size() at its
pre-Add value; and from an empty such cache Size() is 0 after the Add,
while a subsequent Get of the added key misses and increments misses. -/
theorem C10_negativeCapacity (m : Int) (hmneg : m < 0) (c : LRUCache K V)
    (k : K) (v : V) (e now : Int) (hwf : WF c) (hneg : c.cacheSize < 0)
    (habs : k ∉ c.cache) :
    (NewLRUCache K V m).cacheSize = m ∧
    (Add c k v e).2.ll = ({ key := k, value := v, expireAt := e } :: c.ll).dropLast ∧
    Size (Add c k v e).2 = Size c ∧
    (Size c = 0 →
      Size (Add c k v e).2 = 0 ∧
      (Get (Add c k v e).2 k now).1 = none ∧
      (Get (Add c k v e).2 k now).2.stats.miss = (Add c k v e).2.stats.miss + 1) := by
  have hszne : c.cacheSize ≠ 0 := by omega
  have hlen : (c.ll.length : Int) + 1 > c.cacheSize := by omega
  obtain ⟨h1, h2, h3⟩ := addAbsent_evict_state c k v e hwf habs hszne hlen
  refine ⟨?_, h1, h3, ?_⟩
  · show setDefault m 50000 = m
    unfold setDefault
    rw [if_neg (by omega)]
  · intro hsz0
    have hmem : k ∉ (Add c k v e).2.cache := by
      have hll : c.ll = [] := List.length_eq_zero.mp hsz0
      rw [h2, hll]
      simp [mapDelete]
      intro hfalse
      exact absurd hfalse habs
    refine ⟨?_, ?_, ?_⟩
    · rw [h3]
      exact hsz0
    · rw [Get_absent now hmem]
    · rw [Get_absent now hmem]

/-- C10 (witness): on the cache constructed with maxSize -1, adding a key
leaves Size() at 0 and the key cannot be retrieved. -/
theorem C10_witness :
    Size (Add (NewLRUCache String Int (-1)) "a" 1 5).2 = 0 ∧
    (Get (Add (NewLRUCache String Int (-1)) "a" 1 5).2 "a" 9).1 = none := by
  have h := C10_negativeCapacity (-1) (by decide) (NewLRUCache String Int (-1)) "a" 1 5 9
    (by decide) (by decide) (by decide)
  exact ⟨(h.2.2.2 rfl).1, (h.2.2.2 rfl).2.1⟩

end Cache
